import Mathlib

set_option maxRecDepth 2000

/-!
Verification of the BorrowChecker receipt-splitting engine.

The engine (src/core/receipt.rs, src/cli/pattern_parser.rs, src/utils/mod.rs)
is shallowly embedded here.  The Rust `rust_decimal::Decimal` substrate is
modelled by `ℚ` with exact arithmetic; `Decimal::round_dp(2)` (whose default
strategy is MidpointNearestEven, i.e. bankers rounding) is modelled by
`roundDp2`.  Division on `Decimal` panics when the divisor is zero; the model
uses the total division of `ℚ` (where `q / 0 = 0`) and the zero-divisor
situations reachable through the public interface are analysed separately
(see the theorems about division by zero).  Mutating Rust methods taking
`&mut self` are modelled by explicit state passing: they return the result
together with the receipt state after the call, so that partial mutation on a
failing call is observable.  Error message strings are abbreviated versions of
the Rust format strings, except where a claim distinguishes two errors of the
same constructor by their message, in which case the message is kept verbatim.
-/

/-- Addition on the model of `Decimal`.  The four arithmetic operations of the
model are written with the explicitly normalising constructor `mkRat` (rather
than with the `+`, `-`, `*`, `/` of `ℚ`, whose library definitions do not
unfold) so that every concrete receipt computation in this file evaluates;
the lemmas `qadd_eq`, `qsub_eq`, `qmul_eq` and `qdiv_eq` below prove that
they are exactly the field operations of `ℚ`. -/
def qadd (a b : ℚ) : ℚ := mkRat (a.num * b.den + b.num * a.den) (a.den * b.den)

/-- Subtraction on the model of `Decimal`; equals `a - b` on `ℚ`. -/
def qsub (a b : ℚ) : ℚ := mkRat (a.num * b.den - b.num * a.den) (a.den * b.den)

/-- Multiplication on the model of `Decimal`; equals `a * b` on `ℚ`. -/
def qmul (a b : ℚ) : ℚ := mkRat (a.num * b.num) (a.den * b.den)

/-- Division on the model of `Decimal`; equals the total `a / b` of `ℚ`, with
`qdiv a 0 = 0` (`rust_decimal` panics on a zero divisor instead; the zero
divisors reachable through the public interface are analysed by the theorem
about division by zero). -/
def qdiv (a b : ℚ) : ℚ := Rat.divInt (a.num * b.den) (a.den * b.num)

/-- Model of `Iterator::sum` over decimals; equals `List.sum` on `ℚ`. -/
def qsum : List ℚ → ℚ
  | [] => 0
  | a :: l => qadd a (qsum l)

/-- Lemma: `qadd` is the addition of `ℚ`. -/
theorem qadd_eq (a b : ℚ) : qadd a b = a + b := by
  rw [qadd, Rat.mkRat_eq_divInt, Rat.divInt_eq_div]
  conv_rhs => rw [← Rat.num_div_den a, ← Rat.num_div_den b]
  rw [div_add_div _ _ (Nat.cast_ne_zero.mpr a.den_nz) (Nat.cast_ne_zero.mpr b.den_nz)]
  push_cast
  ring_nf

/-- Lemma: `qsub` is the subtraction of `ℚ`. -/
theorem qsub_eq (a b : ℚ) : qsub a b = a - b := by
  rw [qsub, Rat.mkRat_eq_divInt, Rat.divInt_eq_div]
  conv_rhs => rw [← Rat.num_div_den a, ← Rat.num_div_den b]
  rw [div_sub_div _ _ (Nat.cast_ne_zero.mpr a.den_nz) (Nat.cast_ne_zero.mpr b.den_nz)]
  push_cast
  ring_nf

/-- Lemma: `qmul` is the multiplication of `ℚ`. -/
theorem qmul_eq (a b : ℚ) : qmul a b = a * b := by
  rw [qmul, Rat.mkRat_eq_divInt, Rat.divInt_eq_div]
  conv_rhs => rw [← Rat.num_div_den a, ← Rat.num_div_den b]
  rw [div_mul_div_comm]
  push_cast
  ring_nf

/-- Lemma: `qdiv` is the total division of `ℚ`. -/
theorem qdiv_eq (a b : ℚ) : qdiv a b = a / b := by
  by_cases hb : b = 0
  · subst hb
    simp [qdiv]
  · have hbn : (b.num : ℚ) ≠ 0 := Int.cast_ne_zero.mpr (Rat.num_ne_zero.mpr hb)
    have ha : (a.den : ℚ) ≠ 0 := Nat.cast_ne_zero.mpr a.den_nz
    have hbd : (b.den : ℚ) ≠ 0 := Nat.cast_ne_zero.mpr b.den_nz
    rw [qdiv, Rat.divInt_eq_div]
    conv_rhs => rw [← Rat.num_div_den a, ← Rat.num_div_den b]
    push_cast
    field_simp

/-- Lemma: `qsum` is the list sum of `ℚ`. -/
theorem qsum_eq (l : List ℚ) : qsum l = l.sum := by
  induction l with
  | nil => rfl
  | cons a l ih => rw [qsum, qadd_eq, ih, List.sum_cons]

/-- Rounding of the fraction `n / d` (with `0 < d`) to the nearest integer,
ties to even: the rounding used by `Decimal::round_dp` (strategy
MidpointNearestEven), on the floored quotient and remainder. -/
def roundHalfEvenInt (n d : ℤ) : ℤ :=
  let fl := Int.fdiv n d
  let rem := n - fl * d
  if 2 * rem < d then fl
  else if d < 2 * rem then fl + 1
  else if fl % 2 = 0 then fl else fl + 1

/-- Model of `Decimal::round_dp(2)`: round to two fractional digits, ties to
even. -/
def roundDp2 (q : ℚ) : ℚ := mkRat (roundHalfEvenInt (q.num * 100) (q.den : ℤ)) 100

/-- Model of `SplittingError` (src/core/receipt.rs lines 30-43). -/
inductive SplittingError where
  | DuplicatePeopleError : String → SplittingError
  | NotEnoughPeopleError : String → SplittingError
  | InvalidShareConfiguration : String → SplittingError
  | InvalidFieldError : String → SplittingError
  | InvalidAbbreviation : String → SplittingError
  | InternalError : String → SplittingError
  | ItemTotalExceedsReceiptTotal : String → SplittingError
  | DecimalParsingError : String → SplittingError
  | InvalidArgument : String → SplittingError
  | InvalidIndexError : String → SplittingError
  | NotProportionallySplittableError : String → SplittingError
deriving DecidableEq

/-- Model of `ReceiptItem` (src/core/receipt.rs lines 20-28).  The Rust field
`share_ratio` is called `share_ratios` here (a Lean surface restriction on
identifiers; same field otherwise). -/
structure ReceiptItem where
  value : ℚ
  name : String
  shared_by : List String
  share_ratios : List ℚ
  is_prop_dist : Bool
deriving DecidableEq, Inhabited

/-- Model of `Receipt` (src/core/receipt.rs lines 12-18).  The Rust
`HashMap<Person, String>` of memoized abbreviations is modelled by an
association list looked up with `List.lookup`; the resolver only ever inserts
keys that are absent, so prepending a fresh binding agrees with
`HashMap::insert` for every later lookup. -/
structure Receipt where
  value : ℚ
  shared_by : List String
  mapped_abbreviations : List (String × String)
  items : List ReceiptItem
deriving DecidableEq, Inhabited

/-- Model of `utils::is_string_vec_unique` (src/utils/mod.rs lines 3-10): the
HashSet insertion loop succeeds exactly when the list has no duplicates. -/
def is_string_vec_unique : List String → Bool
  | [] => true
  | x :: xs => !(xs.contains x) && is_string_vec_unique xs

/-- Model of `utils::is_abbrev_match_to_string` (src/utils/mod.rs lines
20-24): every character of the abbreviation occurs somewhere in the name. -/
def is_abbrev_match_to_string (ab : String) (name : String) : Bool :=
  ab.data.all (fun c => name.data.any (fun nc => nc == c))

/-- Model of `Receipt::new` (src/core/receipt.rs lines 76-96). -/
def Receipt.new (value : ℚ) (shared_by : List String) :
    Except SplittingError Receipt :=
  if !(is_string_vec_unique shared_by) then
    .error (.DuplicatePeopleError "The list of people sharing the receipt is duplicated. Please disambiguate.")
  else if shared_by.isEmpty || shared_by.length = 1 then
    .error (.NotEnoughPeopleError "A receipt has to be shared by at least 2 people.")
  else
    .ok { value, shared_by, mapped_abbreviations := [], items := [] }

/-- Model of `Receipt::add_item_split_by_ratio` (src/core/receipt.rs lines
98-135); the Lean name carries a trailing `s` (surface restriction on
identifiers), the behaviour is that of the Rust method. -/
def Receipt.add_item_split_by_ratios (r : Receipt) (value : ℚ) (name : String)
    (shared_by : List String) (ratios : Option (List ℚ)) :
    Except SplittingError Receipt :=
  let share_ratios := ratios.getD (List.replicate shared_by.length 1)
  if shared_by.length ≠ share_ratios.length then
    .error (.InvalidShareConfiguration "Length mismatch between the people sharing and the ratios of the shares.")
  else if shared_by.length = 0 then
    .error (.NotEnoughPeopleError "An item must be shared by at least 1 person.")
  else if name.isEmpty then
    .error (.InvalidFieldError "Item name cannot be empty")
  else
    .ok { r with items := r.items ++ [{ value, name, shared_by, share_ratios, is_prop_dist := false }] }

/-- Distribution of one item over the receipt participants, in receipt order
(the inner `item_split` of `Receipt::calculate_receipt_proportions`,
src/core/receipt.rs lines 147-160): a participant found in the item gets that
share of the item value, everyone else gets zero. -/
def item_split_aligned (parts : List String) (item : ReceiptItem) : List ℚ :=
  let denominator : ℚ := qsum item.share_ratios
  parts.map (fun person =>
    match (item.shared_by.zip item.share_ratios).find? (fun sr => person == sr.1) with
    | some sr => qmul (qdiv sr.2 denominator) item.value
    | none => 0)

/-- Model of `Receipt::calculate_receipt_proportions` (src/core/receipt.rs
lines 138-167): accumulate the aligned splits of all non-proportional items,
starting from a zero vector over the participants. -/
def Receipt.calculate_receipt_proportions (r : Receipt) : List ℚ :=
  (r.items.filter (fun x => !x.is_prop_dist)).foldl
    (fun receipt_split item =>
      List.zipWith qadd receipt_split (item_split_aligned r.shared_by item))
    (List.replicate r.shared_by.length 0)

/-- Model of `Receipt::calculate_item_share_ratio_by_proportion`
(src/core/receipt.rs lines 169-192): restrict the aggregate non-proportional
splits to the given sharers, normalise by their total, scale by the value and
round each entry to 2 digits. -/
def Receipt.calculate_item_share_ratio_by_proportion (r : Receipt)
    (shared_by : List String) (value : ℚ) : List ℚ :=
  let pre_prop_splits : List ℚ :=
    ((r.calculate_receipt_proportions.zip r.shared_by).filter
      (fun sp => shared_by.contains sp.2)).map (fun sp => sp.1)
  let pre_prop_split_total : ℚ := qsum pre_prop_splits
  let proportional_splits : List ℚ := pre_prop_splits.map (fun x => qdiv x pre_prop_split_total)
  proportional_splits.map (fun q => roundDp2 (qmul q value))

/-- Model of `Receipt::add_item_split_by_proportion` (src/core/receipt.rs
lines 194-221). -/
def Receipt.add_item_split_by_proportion (r : Receipt) (value : ℚ)
    (name : String) (shared_by : List String) : Except SplittingError Receipt :=
  if shared_by.length = 0 then
    .error (.InvalidShareConfiguration "Number of people sharing this receipt cannot be zero.")
  else if name.isEmpty then
    .error (.InvalidFieldError "Item name cannot be empty")
  else
    let share_ratios := r.calculate_item_share_ratio_by_proportion shared_by value
    .ok { r with items := r.items ++ [{ value, name, shared_by, share_ratios, is_prop_dist := true }] }

/-- Model of `Receipt::get_itemized_total_and_leftover` (src/core/receipt.rs
lines 223-227). -/
def Receipt.get_itemized_total_and_leftover (r : Receipt) : ℚ × ℚ :=
  let itemized_total : ℚ := qsum (r.items.map (fun x => x.value))
  (itemized_total, qsub r.value itemized_total)

/-- Model of Rust `Iterator::position`: index of the first element satisfying
the predicate. -/
def listPosition (p : String → Bool) : List String → Option Nat
  | [] => none
  | a :: l => if p a then some 0 else (listPosition p l).map (fun i => i + 1)

/-- Per-participant cells of one item row of `calculate_splits` before
rounding (src/core/receipt.rs lines 254-266 without the `round_dp`): used to
state how each emitted cell arises from an exact share. -/
def itemRowUnrounded (parts : List String) (item : ReceiptItem) : List ℚ :=
  parts.map (fun x =>
    match listPosition (fun name => name == x) item.shared_by with
    | some pos => qdiv (qmul item.value (item.share_ratios.getD pos 0)) (qsum item.share_ratios)
    | none => 0)

/-- Model of `Receipt::calculate_splits` (src/core/receipt.rs lines 232-294).
Out-of-bounds indexing `item.share_ratio[pos]` cannot occur when every item
has sharers and ratios of equal length; the model uses `getD _ 0` at that
spot. -/
def Receipt.calculate_splits (r : Receipt) :
    Except SplittingError (List String × List (List ℚ)) :=
  let leftover_amount : ℚ := (r.get_itemized_total_and_leftover).2
  if leftover_amount < 0 then
    .error (.ItemTotalExceedsReceiptTotal "The itemized total amount exceeds the receipt total amount.")
  else
    let all_splits : List (List ℚ) := r.items.map (fun item =>
      (r.shared_by.map (fun x =>
        match listPosition (fun name => name == x) item.shared_by with
        | some pos => roundDp2 (qdiv (qmul item.value (item.share_ratios.getD pos 0)) (qsum item.share_ratios))
        | none => roundDp2 0)) ++ [item.value])
    let item_names : List String := r.items.map (fun x => x.name)
    let with_leftover : List (List ℚ) × List String :=
      if 0 < leftover_amount then
        let overall_prop := r.calculate_receipt_proportions
        let overall_prop_sum : ℚ := qsum overall_prop
        (all_splits ++ [(overall_prop.map (fun x => roundDp2 (qdiv (qmul x leftover_amount) overall_prop_sum))) ++ [leftover_amount]],
         item_names ++ ["<leftover>"])
      else (all_splits, item_names)
    let total_split : List ℚ := (List.range (r.shared_by.length + 1)).map
      (fun i => roundDp2 (qsum (with_leftover.1.map (fun v => v.getD i 0))))
    .ok (with_leftover.2 ++ ["<total>"], with_leftover.1 ++ [total_split])

/-- Model of `Receipt::is_proportionally_splittable` (src/core/receipt.rs
lines 298-308).  The Rust `.min().unwrap_or(true)` over an iterator of
booleans is their conjunction (with `true` for the empty iterator), written
here with `List.all`. -/
def Receipt.is_proportionally_splittable (r : Receipt) (index : Nat) : Bool :=
  let boo : List Bool :=
    (r.items.enum.filter (fun ix => ix.1 != index)).map (fun ix => ix.2.is_prop_dist)
  !(boo.all (fun b => b))

/-- Model of `Receipt::recalculate_proportions` (src/core/receipt.rs lines
310-324).  The Rust method first collects the fresh share ratios of every
proportional item from the unmodified receipt and then writes them back in
the same order; that two-phase pass equals this single map in which every
recomputation reads only the pre-state `r`. -/
def Receipt.recalculate_proportions (r : Receipt) : Receipt :=
  { r with items := r.items.map (fun item =>
      if item.is_prop_dist then
        { item with share_ratios := r.calculate_item_share_ratio_by_proportion item.shared_by item.value }
      else item) }

/-- Tail of `Receipt::update_item_at_index` after the in-place field writes
(src/core/receipt.rs lines 384-390): commit the updated item and, when
proportional items remain and a recalculation-triggering field was passed,
run the recalculation pass. -/
def finishUpdate (r : Receipt) (idx : Nat) (item : ReceiptItem) (value : Option ℚ)
    (shared_by : Option (List String)) (is_prop_dist : Option Bool) :
    Except SplittingError Unit × Receipt :=
  let r1 : Receipt := { r with items := r.items.set idx item }
  if 0 < (r1.items.filter (fun x => x.is_prop_dist)).length ∧
      (value.isSome || shared_by.isSome || is_prop_dist.isSome) then
    (.ok (), r1.recalculate_proportions)
  else
    (.ok (), r1)

/-- Model of `Receipt::update_item_at_index` (src/core/receipt.rs lines
326-391).  The Rust method mutates the item through `get_mut` field by field;
the state returned on the `NotProportionallySplittableError` path therefore
already contains the value, name and sharing updates applied before the
rejected flag flip. -/
def Receipt.update_item_at_index (r : Receipt) (idx : Nat) (value : Option ℚ)
    (name : Option String) (shared_by : Option (List String))
    (is_prop_dist : Option Bool) : Except SplittingError Unit × Receipt :=
  let splittable := r.is_proportionally_splittable idx
  match r.items.get? idx with
  | none =>
    (.error (.InvalidIndexError "Provide index is outside the range of items present in the receipt"), r)
  | some item0 =>
    let item1 : ReceiptItem :=
      { item0 with value := value.getD item0.value, name := name.getD item0.name }
    let item2 : ReceiptItem :=
      match shared_by with
      | some sb => { item1 with shared_by := sb, share_ratios := List.replicate sb.length 1 }
      | none => item1
    match is_prop_dist with
    | some true =>
      if splittable then
        finishUpdate r idx { item2 with is_prop_dist := true, shared_by := r.shared_by }
          value shared_by is_prop_dist
      else
        (.error (.NotProportionallySplittableError "There are not enough items left to split proportionally on"),
         { r with items := r.items.set idx item2 })
    | some false =>
      finishUpdate r idx
        { item2 with
          is_prop_dist := false
          shared_by := r.shared_by
          share_ratios := List.replicate r.shared_by.length 1 }
        value shared_by is_prop_dist
    | none => finishUpdate r idx item2 value shared_by is_prop_dist

/-- Message of the out-of-bounds rejection of `remove_item_at_index`. -/
def outOfBoundsRemoveMsg : String := "Provided index is out of bounds"

/-- Message of the last-non-proportional-item rejection of
`remove_item_at_index` (kept verbatim: it shares its `InvalidIndexError`
constructor with the out-of-bounds rejection and is told apart by the
message). -/
def lastNonPropRemoveMsg : String :=
  "The last non-proportional item cannot be removed when there are proportional items in the receipt."

/-- Model of `Receipt::remove_item_at_index` (src/core/receipt.rs lines
395-420). -/
def Receipt.remove_item_at_index (r : Receipt) (idx : Nat) :
    Except SplittingError Unit × Receipt :=
  let proportional_count := (r.items.filter (fun x => x.is_prop_dist)).length
  if r.items.length ≤ idx then
    (.error (.InvalidIndexError outOfBoundsRemoveMsg), r)
  else if (r.items.filter (fun x => !x.is_prop_dist)).length = 1 ∧
      0 < proportional_count ∧ (r.items.getD idx default).is_prop_dist = false then
    (.error (.InvalidIndexError lastNonPropRemoveMsg), r)
  else
    let r1 : Receipt := { r with items := r.items.eraseIdx idx }
    if 0 < proportional_count then (.ok (), r1.recalculate_proportions)
    else (.ok (), r1)

/-- Scan for the first participant matching the abbreviation and not yet
claimed in this call (the inner loop of `Receipt::align_to_shared_by`,
src/cli/pattern_parser.rs lines 50-60). -/
def findUnclaimedMatch (ab : String) (matched : List String) :
    List String → Option String
  | [] => none
  | name :: rest =>
    if is_abbrev_match_to_string ab name && !(matched.contains name) then some name
    else findUnclaimedMatch ab matched rest

/-- Main loop of `Receipt::align_to_shared_by` (src/cli/pattern_parser.rs
lines 34-70), threading the abbreviation map and the names already claimed in
this call. -/
def alignLoop (parts : List String) (m : List (String × String))
    (matched : List String) : List String →
    Except SplittingError (List String) × List (String × String)
  | [] => (.ok matched, m)
  | ab :: rest =>
    match m.lookup ab with
    | some existing_name =>
      if matched.contains existing_name then
        (.error (.DuplicatePeopleError "maps to a name which has already been specified once"), m)
      else alignLoop parts m (matched ++ [existing_name]) rest
    | none =>
      match findUnclaimedMatch ab matched parts with
      | some name => alignLoop parts ((ab, name) :: m) (matched ++ [name]) rest
      | none => (.error (.InvalidAbbreviation "does not match to a provided person name"), m)

/-- Model of `Receipt::align_to_shared_by` (src/cli/pattern_parser.rs lines
19-73), taking the abbreviation list already split at the commas (the split
itself is string plumbing).  Map insertions made before a failure persist,
as they do through the `&mut self` of the Rust method. -/
def Receipt.align_to_shared_by (r : Receipt) (abbrevs : List String) :
    Except SplittingError (List String) × Receipt :=
  if !(is_string_vec_unique abbrevs) then
    (.error (.InvalidAbbreviation "the abbreviation string has duplicates"), r)
  else
    match alignLoop r.shared_by r.mapped_abbreviations [] abbrevs with
    | (res, m) => (res, { r with mapped_abbreviations := m })

deriving instance DecidableEq for Except

/-- Ratio item Food of the C1 scenario: value 200, shared by all three
participants with the default uniform ratios. -/
def itFood : ReceiptItem :=
  { value := 200, name := "Food", shared_by := ["Alice", "Bob", "Marshall"]
    share_ratios := [1, 1, 1], is_prop_dist := false }

/-- Ratio item Drinks of the C1 scenario: value 50, shared by Alice and Bob
with the default uniform ratios. -/
def itDrinks : ReceiptItem :=
  { value := 50, name := "Drinks", shared_by := ["Alice", "Bob"]
    share_ratios := [1, 1], is_prop_dist := false }

/-- Receipt of the C1 scenario after both items are added. -/
def c1r : Receipt :=
  { value := 300, shared_by := ["Alice", "Bob", "Marshall"]
    mapped_abbreviations := [], items := [itFood, itDrinks] }

/-- Construction of the C1 scenario receipt through the public interface. -/
def c1chain : Except SplittingError Receipt :=
  (Receipt.new 300 ["Alice", "Bob", "Marshall"]).bind (fun r =>
    (r.add_item_split_by_ratios 200 "Food" ["Alice", "Bob", "Marshall"] none).bind (fun r2 =>
      r2.add_item_split_by_ratios 50 "Drinks" ["Alice", "Bob"] none))

/-- C1: Receipt(300, [Alice, Bob, Marshall]) with ratio items Food (200,
all three, uniform) and Drinks (50, Alice and Bob, uniform): CalculateSplits
succeeds and returns exactly the rows Food = [66.67, 66.67, 66.67, 200],
Drinks = [25, 25, 0, 50], leftover row [18.33, 18.33, 13.33, 50] labelled
"<leftover>" and total row [110, 110, 80, 300] labelled "<total>", columns in
participant order plus a trailing total column. -/
theorem c1_calculate_splits_scenario :
    c1chain = .ok c1r ∧
    c1r.calculate_splits = .ok (["Food", "Drinks", "<leftover>", "<total>"],
      [[mkRat 6667 100, mkRat 6667 100, mkRat 6667 100, 200], [25, 25, 0, 50],
       [mkRat 1833 100, mkRat 1833 100, mkRat 1333 100, 50], [110, 110, 80, 300]]) := by
  constructor
  · rfl
  · decide

/-- Construction of the C5 scenario receipt through the public interface:
three ratio items (30 for Alice, 60 for Bob, 15 for Marshall), then the
proportional items Tax (50, Alice and Bob) and Tip (50, Bob and Marshall). -/
def c5chain : Except SplittingError Receipt :=
  (Receipt.new 300 ["Alice", "Bob", "Marshall"]).bind (fun r =>
    (r.add_item_split_by_ratios 30 "Hearty Burger" ["Alice"] none).bind (fun r1 =>
    (r1.add_item_split_by_ratios 60 "Unhealthy Burger" ["Bob"] none).bind (fun r2 =>
    (r2.add_item_split_by_ratios 15 "Vegan Salad" ["Marshall"] none).bind (fun r3 =>
    (r3.add_item_split_by_proportion 50 "Tax" ["Alice", "Bob"]).bind (fun r4 =>
    r4.add_item_split_by_proportion 50 "Tip" ["Bob", "Marshall"])))))

/-- C5: the stored share ratios of the proportional items of the C5 scenario:
Tax gets [16.67, 33.33] (the non-proportional aggregate [30, 60] restricted
to Alice and Bob, normalised to sum 1 and multiplied by 50) and Tip gets
[40, 10] (aggregate [60, 15] of Bob and Marshall scaled to 50), in
absolute-value units. -/
theorem c5_add_by_proportion_scenario :
    c5chain.map (fun r => r.items.map (fun it => (it.name, it.share_ratios, it.is_prop_dist))) =
      .ok [("Hearty Burger", [1], false), ("Unhealthy Burger", [1], false),
           ("Vegan Salad", [1], false), ("Tax", [mkRat 1667 100, mkRat 3333 100], true),
           ("Tip", [(40 : ℚ), 10], true)] := by
  decide

/-- Freshly constructed receipt with positive value and no items: the C10
configuration in which the non-proportional aggregate is all zeros. -/
def freshReceipt : Receipt :=
  { value := 300, shared_by := ["Alice", "Bob"], mapped_abbreviations := [], items := [] }

/-- C10: the normalisations by the non-proportional aggregate total are
unguarded divisions.  On the freshly constructed `freshReceipt` (reachable
through `Receipt.new`), `calculate_splits` passes the over-commit check with
leftover 300 > 0 and reaches the leftover row, whose every cell divides by
`calculate_receipt_proportions.sum = 0` (one division per participant, and
there are participants); likewise `add_item_split_by_proportion` passes its
validation and divides each entry of its nonempty restricted aggregate by
their sum 0.  In `rust_decimal`, `Div` panics on a zero divisor, so the Rust
engine panics instead of returning an error; in this model division is total
with `q / 0 = 0`, and the theorem also records the resulting all-zero rows
that exhibit the reached division sites. -/
theorem c10_division_by_zero_reachable :
    Receipt.new 300 ["Alice", "Bob"] = .ok freshReceipt ∧
    0 < (freshReceipt.get_itemized_total_and_leftover).2 ∧
    freshReceipt.calculate_receipt_proportions.sum = 0 ∧
    freshReceipt.shared_by ≠ [] ∧
    freshReceipt.calculate_splits =
      .ok (["<leftover>", "<total>"], [[0, 0, 300], [0, 0, 300]]) ∧
    ((freshReceipt.calculate_receipt_proportions.zip freshReceipt.shared_by).filter
        (fun sp => ["Alice", "Bob"].contains sp.2)).map (fun sp => sp.1) = [0, 0] ∧
    freshReceipt.add_item_split_by_proportion 50 "Tax" ["Alice", "Bob"] =
      .ok { freshReceipt with
            items := [{ value := 50, name := "Tax", shared_by := ["Alice", "Bob"]
                        share_ratios := [0, 0], is_prop_dist := true }] } := by
  refine ⟨by decide, by decide, ?_, by decide, by decide, by decide, by decide⟩
  rw [← qsum_eq]
  decide

/-- Single non-proportional item of the C2 counterexample receipt. -/
def itOnly : ReceiptItem :=
  { value := 10, name := "Food", shared_by := ["Alice"], share_ratios := [1], is_prop_dist := false }

/-- Receipt of the C2 counterexample: one item, so flipping it to
proportional is rejected. -/
def rOneItem : Receipt :=
  { value := 100, shared_by := ["Alice", "Bob"], mapped_abbreviations := [], items := [itOnly] }

/-- C2 counterexample: an `update_item_at_index` call that combines a value
update with `is_prop_dist = some true` on the only item is rejected with
`NotProportionallySplittableError`, yet the receipt after the call differs
from the receipt before it — the value write was already applied when the
check failed, so the call does NOT leave the receipt exactly as it was. -/
theorem c2_partial_mutation_counterexample :
    ((rOneItem.update_item_at_index 0 (some 20) none none (some true)).1 =
      .error (.NotProportionallySplittableError "There are not enough items left to split proportionally on")) ∧
    (rOneItem.update_item_at_index 0 (some 20) none none (some true)).2 ≠ rOneItem ∧
    ((rOneItem.update_item_at_index 0 (some 20) none none (some true)).2.items.map
      (fun it => it.value)) = [20] := by
  decide

/-- Receipt of the C8 counterexample: its abbreviation map holds an entry
that was not recorded by the resolver and maps "A" to Bob even though no
character of "A" occurs in "Bob". -/
def rPolluted : Receipt :=
  { value := 300, shared_by := ["Alice", "Bob"], mapped_abbreviations := [("A", "Bob")], items := [] }

/-- C8 counterexample: the participants Alice and Bob have disjoint character
sets and the non-empty abbreviation "A" has all its characters in "Alice",
yet resolving it against `rPolluted` returns Bob, not Alice — the claim is
false for an arbitrary pre-existing abbreviation map, because a mapped
abbreviation is used without re-checking the match. -/
theorem c8_polluted_map_counterexample :
    (["Alice", "Bob"] : List String).Pairwise
      (fun a b => ∀ c, c ∈ a.data → c ∈ b.data → False) ∧
    rPolluted.shared_by = ["Alice", "Bob"] ∧
    is_abbrev_match_to_string "A" "Alice" = true ∧
    "A".data ≠ [] ∧
    (rPolluted.align_to_shared_by ["A"]).1 = .ok ["Bob"] ∧
    ("Bob" : String) ≠ "Alice" := by
  decide

/-- Rounded cells of the Food row of the C1 scenario. -/
def foodRowCells : List ℚ := [mkRat 6667 100, mkRat 6667 100, mkRat 6667 100]

/-- C7 counterexample: in the C1 receipt — a valid receipt with no
proportional items — the per-participant cells of the Food row of
`calculate_splits` are [66.67, 66.67, 66.67], which sum to 200.01, not to
the item value 200: the rounded cells of a row do not sum exactly to the
item value. -/
theorem c7_rounded_row_sum_counterexample :
    c1r.items.all (fun it => !it.is_prop_dist) = true ∧
    c1r.calculate_splits = .ok (["Food", "Drinks", "<leftover>", "<total>"],
      [foodRowCells ++ [200], [25, 25, 0, 50],
       [mkRat 1833 100, mkRat 1833 100, mkRat 1333 100, 50], [110, 110, 80, 300]]) ∧
    itFood.value = 200 ∧
    foodRowCells.sum ≠ itFood.value := by
  refine ⟨by decide, by decide, by decide, ?_⟩
  rw [← qsum_eq]
  decide

/-- Over-committed receipt: total 300 with a single item of 310. -/
def rOver : Receipt :=
  { value := 300, shared_by := ["Alice", "Bob"], mapped_abbreviations := []
    items := [{ value := 310, name := "Big", shared_by := ["Alice"], share_ratios := [1], is_prop_dist := false }] }

/-- C4: `calculate_splits` fails if and only if the itemized total strictly
exceeds the receipt value (equivalently, the leftover is negative), and every
failure is the `ItemTotalExceedsReceiptTotal` error.  The model function
takes the receipt by value and returns only the table, mirroring the `&self`
(shared, immutable) borrow of the Rust method: no mutation of the receipt is
possible in either the model or the source, on success or on failure. -/
theorem c4_splits_error_iff_overcommitted (r : Receipt) :
    ((∃ e, r.calculate_splits = .error e) ↔
      r.value < (r.items.map (fun it => it.value)).sum) ∧
    ∀ e, r.calculate_splits = .error e →
      e = .ItemTotalExceedsReceiptTotal "The itemized total amount exceeds the receipt total amount." := by
  have hleft : ((r.get_itemized_total_and_leftover).2 < 0 ↔
      r.value < (r.items.map (fun it => it.value)).sum) := by
    rw [Receipt.get_itemized_total_and_leftover]
    simp only [qsub_eq, qsum_eq]
    exact sub_neg
  by_cases h : (r.get_itemized_total_and_leftover).2 < 0
  · have hcalc : r.calculate_splits =
        .error (.ItemTotalExceedsReceiptTotal "The itemized total amount exceeds the receipt total amount.") := by
      rw [Receipt.calculate_splits, if_pos h]
    refine ⟨⟨fun _ => hleft.mp h, fun _ => ⟨_, hcalc⟩⟩, ?_⟩
    intro e he
    rw [hcalc] at he
    exact (Except.error.injEq _ _).mp he.symm
  · have hcalc : ∃ table, r.calculate_splits = .ok table := by
      rw [Receipt.calculate_splits, if_neg h]
      exact ⟨_, rfl⟩
    obtain ⟨table, htable⟩ := hcalc
    constructor
    · constructor
      · rintro ⟨e, he⟩
        rw [htable] at he
        exact absurd he (by simp)
      · intro hv
        exact absurd (hleft.mpr hv) h
    · intro e he
      rw [htable] at he
      exact absurd he (by simp)

/-- Witness for C4 at a concrete over-committed receipt: total 300, item
totals 310, so `calculate_splits` fails. -/
theorem c4_witness : ∃ e, rOver.calculate_splits = .error e :=
  (c4_splits_error_iff_overcommitted rOver).1.mpr (by rw [← qsum_eq]; decide)

/-- Helper: the recalculation pass leaves every non-proportional item — and
hence the filtered list the aggregate is computed from — untouched. -/
theorem recalc_filter_nonprop (r : Receipt) :
    (r.recalculate_proportions).items.filter (fun x => !x.is_prop_dist) =
      r.items.filter (fun x => !x.is_prop_dist) := by
  rw [Receipt.recalculate_proportions]
  rw [List.filter_map]
  have hcomp : ((fun (x : ReceiptItem) => !x.is_prop_dist) ∘ fun (item : ReceiptItem) =>
      if item.is_prop_dist then
        { item with share_ratios := r.calculate_item_share_ratio_by_proportion item.shared_by item.value }
      else item) = fun (x : ReceiptItem) => !x.is_prop_dist := by
    funext it
    by_cases h : it.is_prop_dist <;> simp [h]
  rw [hcomp]
  have hid : ∀ it ∈ r.items.filter (fun x => !x.is_prop_dist),
      (if it.is_prop_dist then
        { it with share_ratios := r.calculate_item_share_ratio_by_proportion it.shared_by it.value }
      else it) = it := by
    intro it hit
    have := (List.mem_filter.mp hit).2
    simp at this
    simp [this]
  rw [List.map_congr_left hid]
  exact List.map_id _

/-- Helper: the aggregate non-proportional proportions are unchanged by a
recalculation pass. -/
theorem recalc_receipt_proportions (r : Receipt) :
    (r.recalculate_proportions).calculate_receipt_proportions =
      r.calculate_receipt_proportions := by
  rw [Receipt.calculate_receipt_proportions, Receipt.calculate_receipt_proportions,
    recalc_filter_nonprop]
  rfl

/-- Helper: a derived proportional ratio is unchanged by a recalculation
pass, since it only reads the participants and the aggregate of the
non-proportional items. -/
theorem recalc_item_share_ratio (r : Receipt) (sb : List String) (v : ℚ) :
    (r.recalculate_proportions).calculate_item_share_ratio_by_proportion sb v =
      r.calculate_item_share_ratio_by_proportion sb v := by
  rw [Receipt.calculate_item_share_ratio_by_proportion,
    Receipt.calculate_item_share_ratio_by_proportion, recalc_receipt_proportions]
  rfl

/-- C6: the recalculation pass is idempotent — running
`recalculate_proportions` twice with no intervening state change produces the
same receipt as running it once, so every proportional item's `share_ratios`
vector is identical to its value after the first run.  (The Rust pass panics
when a proportional item's restricted aggregate is zero — a division by zero,
see the division-by-zero theorem; in this model with total division the
idempotence holds for every receipt, which covers the claim's receipts whose
non-proportional aggregate is non-zero.) -/
theorem c6_recalculate_idempotent (r : Receipt) :
    (r.recalculate_proportions).recalculate_proportions = r.recalculate_proportions := by
  have hfields : ∀ (s : Receipt) (items' : List ReceiptItem), items' = s.items →
      ({ s with items := items' } : Receipt) = s := by
    intro s items' h
    subst h
    rfl
  rw [Receipt.recalculate_proportions]
  apply hfields
  have hitems : (r.recalculate_proportions).items = r.items.map (fun (item : ReceiptItem) =>
      if item.is_prop_dist then
        { item with share_ratios := r.calculate_item_share_ratio_by_proportion item.shared_by item.value }
      else item) := rfl
  rw [hitems, List.map_map]
  apply List.map_congr_left
  intro it _
  by_cases h : it.is_prop_dist
  · simp only [Function.comp_apply, h, if_pos, if_true]
    rw [recalc_item_share_ratio]
  · simp only [Function.comp_apply, h, if_false]
    simp [h]

/-- Helper: writing back the element already stored at an index leaves a list
unchanged. -/
theorem list_set_self {α : Type} : ∀ (l : List α) (i : Nat) (a : α),
    l.get? i = some a → l.set i a = l
  | [], _, _, h => by cases h
  | x :: xs, 0, a, h => by
    cases h
    rfl
  | x :: xs, i + 1, a, h => by
    rw [List.set]
    rw [list_set_self xs i a h]

/-- C2 (amended): a failing `update_item_at_index` leaves the receipt exactly
as it was provided the failure is the out-of-range `InvalidIndexError`, or
the call carried no value, name or sharing update.  (As stated, over every
failing call, the claim is false: a call combining field updates with
`is_prop_dist = some true` is rejected with `NotProportionallySplittableError`
only after the field writes have been applied — see the counterexample.) -/
theorem c2_update_failure_unchanged_amended (r : Receipt) (idx : Nat)
    (v : Option ℚ) (n : Option String) (sb : Option (List String)) (ipd : Option Bool)
    (e : SplittingError)
    (he : (r.update_item_at_index idx v n sb ipd).1 = .error e)
    (hcase : (∃ msg, e = .InvalidIndexError msg) ∨ (v = none ∧ n = none ∧ sb = none)) :
    (r.update_item_at_index idx v n sb ipd).2 = r := by
  cases hget : r.items.get? idx with
  | none =>
    simp only [Receipt.update_item_at_index, hget]
  | some item0 =>
    rcases ipd with _ | b
    · simp only [Receipt.update_item_at_index, hget, finishUpdate] at he
      split at he <;> simp at he
    · cases b
      · simp only [Receipt.update_item_at_index, hget, finishUpdate] at he
        split at he <;> simp at he
      · by_cases hs : r.is_proportionally_splittable idx = true
        · simp only [Receipt.update_item_at_index, hget, hs, if_true, finishUpdate] at he
          split at he <;> simp at he
        · have hs' : r.is_proportionally_splittable idx = false := by
            simpa using hs
          simp only [Receipt.update_item_at_index, hget, hs', Bool.false_eq_true, if_false] at he ⊢
          rcases hcase with ⟨msg, hmsg⟩ | ⟨hv, hn, hsb⟩
          · subst hmsg
            simp at he
          · subst hv
            subst hn
            subst hsb
            simp only [Option.getD_none]
            have hset : r.items.set idx item0 = r.items := list_set_self _ _ _ hget
            calc ({ r with items := r.items.set idx item0 } : Receipt)
                = { r with items := r.items } := by rw [hset]
              _ = r := rfl

/-- Witness for the amended C2 at a concrete out-of-range call: the update is
rejected with `InvalidIndexError` and the receipt is unchanged. -/
theorem c2_amended_witness :
    (rOneItem.update_item_at_index 5 (some 20) none none none).2 = rOneItem :=
  c2_update_failure_unchanged_amended rOneItem 5 (some 20) none none none
    (.InvalidIndexError "Provide index is outside the range of items present in the receipt")
    (by decide) (.inl ⟨_, rfl⟩)

/-- Helper: a list with elements satisfying a predicate at two distinct
indices keeps at least two of them after filtering. -/
theorem filter_two_le {α : Type} (p : α → Bool) :
    ∀ (l : List α) (i j : Nat) (a b : α), i ≠ j →
      l.get? i = some a → l.get? j = some b → p a = true → p b = true →
      2 ≤ (l.filter p).length
  | [], i, _, _, _, _, ha, _, _, _ => by cases ha
  | x :: xs, 0, 0, a, b, hij, _, _, _, _ => absurd rfl hij
  | x :: xs, 0, j + 1, a, b, _, ha, hb, hpa, hpb => by
    have hax : x = a := by
      simpa using ha
    subst hax
    have hbmem : b ∈ xs := by
      have h' : xs.get? j = some b := by simpa using hb
      exact List.get?_mem h'
    have hbfil : b ∈ xs.filter p := List.mem_filter.mpr ⟨hbmem, hpb⟩
    have h1 : 1 ≤ (xs.filter p).length := List.length_pos.mpr (List.ne_nil_of_mem hbfil)
    rw [List.filter_cons, if_pos hpa]
    simpa using h1
  | x :: xs, i + 1, 0, a, b, _, ha, hb, hpa, hpb => by
    have hbx : x = b := by
      simpa using hb
    subst hbx
    have hamem : a ∈ xs := by
      have h' : xs.get? i = some a := by simpa using ha
      exact List.get?_mem h'
    have hafil : a ∈ xs.filter p := List.mem_filter.mpr ⟨hamem, hpa⟩
    have h1 : 1 ≤ (xs.filter p).length := List.length_pos.mpr (List.ne_nil_of_mem hafil)
    rw [List.filter_cons, if_pos hpb]
    simpa using h1
  | x :: xs, i + 1, j + 1, a, b, hij, ha, hb, hpa, hpb => by
    have hij' : i ≠ j := fun h => hij (by rw [h])
    have ih := filter_two_le p xs i j a b hij' (by simpa using ha) (by simpa using hb) hpa hpb
    rw [List.filter_cons]
    split
    · simpa using Nat.le_succ_of_le ih
    · exact ih

/-- Helper: when a receipt has exactly one non-proportional item, sitting at
index `j`, every item at another index is proportional. -/
theorem all_others_proportional (r : Receipt) (j : Nat) (itj : ReceiptItem)
    (hone : (r.items.filter (fun it => !it.is_prop_dist)).length = 1)
    (hj : r.items.get? j = some itj) (hjnp : itj.is_prop_dist = false) :
    ∀ i b, i ≠ j → r.items.get? i = some b → b.is_prop_dist = true := by
  intro i b hij hi
  by_contra hnb
  have hnb' : b.is_prop_dist = false := by
    simpa using hnb
  have h2 := filter_two_le (fun it => !it.is_prop_dist) r.items i j b itj hij hi hj
    (by simp [hnb']) (by simp [hjnp])
  rw [hone] at h2
  exact absurd h2 (by decide)

/-- Helper: with exactly one non-proportional item at index `j`, the receipt
reports index `j` as not proportionally splittable (every other item is
already proportional). -/
theorem not_splittable_at_last (r : Receipt) (j : Nat) (itj : ReceiptItem)
    (hone : (r.items.filter (fun it => !it.is_prop_dist)).length = 1)
    (hj : r.items.get? j = some itj) (hjnp : itj.is_prop_dist = false) :
    r.is_proportionally_splittable j = false := by
  have hall := all_others_proportional r j itj hone hj hjnp
  simp only [Receipt.is_proportionally_splittable, Bool.not_eq_false']
  rw [List.all_eq_true]
  intro x hx
  obtain ⟨ix, hixmem, hixeq⟩ := List.mem_map.mp hx
  have hfil := List.mem_filter.mp hixmem
  have hne : ix.1 ≠ j := by
    have := hfil.2
    simpa using this
  have henum : r.items.get? ix.1 = some ix.2 := by
    have := List.mk_mem_enum_iff_getElem?.mp (by
      have : (ix.1, ix.2) = ix := rfl
      rw [this]
      exact hfil.1)
    rw [List.get?_eq_getElem?]
    exact this
  rw [← hixeq]
  exact hall ix.1 ix.2 hne henum

/-- C3: in a receipt with at least one proportional item and exactly one
non-proportional item (at index `j`), removing index `j` fails — with the
`InvalidIndexError` constructor carrying the dedicated last-non-proportional
message, the code's spelling of the NotProportionallySplittable-class
rejection — and the receipt is unchanged; updating index `j` with
`is_prop_dist = some true` fails with `NotProportionallySplittableError`; and
removing any proportional item of the same receipt returns success. -/
theorem c3_last_nonproportional_protected (r : Receipt) (j : Nat) (itj : ReceiptItem)
    (hone : (r.items.filter (fun it => !it.is_prop_dist)).length = 1)
    (hprop : 0 < (r.items.filter (fun it => it.is_prop_dist)).length)
    (hj : r.items.get? j = some itj)
    (hjnp : itj.is_prop_dist = false) :
    r.remove_item_at_index j = (.error (.InvalidIndexError lastNonPropRemoveMsg), r) ∧
    (r.update_item_at_index j none none none (some true)).1 =
      .error (.NotProportionallySplittableError "There are not enough items left to split proportionally on") ∧
    ∀ k itk, r.items.get? k = some itk → itk.is_prop_dist = true →
      (r.remove_item_at_index k).1 = .ok () := by
  obtain ⟨hlt, -⟩ := List.get?_eq_some.mp hj
  have hgetd : (r.items.getD j default).is_prop_dist = false := by
    rw [List.getD_eq_getElem?_getD, ← List.get?_eq_getElem?, hj]
    simpa using hjnp
  refine ⟨?_, ?_, ?_⟩
  · simp only [Receipt.remove_item_at_index]
    rw [if_neg (by omega : ¬ r.items.length ≤ j), if_pos ⟨hone, hprop, hgetd⟩]
  · have hs := not_splittable_at_last r j itj hone hj hjnp
    simp only [Receipt.update_item_at_index, hj, hs, Bool.false_eq_true, if_false]
  · intro k itk hk hkprop
    obtain ⟨hklt, -⟩ := List.get?_eq_some.mp hk
    have hkgetd : (r.items.getD k default).is_prop_dist = true := by
      rw [List.getD_eq_getElem?_getD, ← List.get?_eq_getElem?, hk]
      simpa using hkprop
    simp only [Receipt.remove_item_at_index]
    rw [if_neg (by omega : ¬ r.items.length ≤ k)]
    rw [if_neg (by
      rintro ⟨-, -, h3⟩
      rw [hkgetd] at h3
      cases h3)]
    split <;> rfl

/-- The single non-proportional item of the C3 witness receipt. -/
def itLastNP : ReceiptItem :=
  { value := 100, name := "Pizza", shared_by := ["Alice", "Bob"], share_ratios := [1, 1], is_prop_dist := false }

/-- The proportional item of the C3 witness receipt. -/
def itLastP : ReceiptItem :=
  { value := 50, name := "Tip", shared_by := ["Alice", "Bob"], share_ratios := [30, 20], is_prop_dist := true }

/-- Receipt with exactly one non-proportional item (index 0) and one
proportional item (index 1). -/
def rLastNonProp : Receipt :=
  { value := 300, shared_by := ["Alice", "Bob"], mapped_abbreviations := [], items := [itLastNP, itLastP] }

/-- Witness for C3 at the concrete receipt `rLastNonProp`. -/
theorem c3_witness :
    rLastNonProp.remove_item_at_index 0 =
      (.error (.InvalidIndexError lastNonPropRemoveMsg), rLastNonProp) ∧
    (rLastNonProp.update_item_at_index 0 none none none (some true)).1 =
      .error (.NotProportionallySplittableError "There are not enough items left to split proportionally on") ∧
    (rLastNonProp.remove_item_at_index 1).1 = .ok () := by
  have h := c3_last_nonproportional_protected rLastNonProp 0 itLastNP
    (by decide) (by decide) (by decide) (by decide)
  exact ⟨h.1, h.2.1, h.2.2 1 itLastP (by decide) (by decide)⟩

/-- Helper: a successful association-list lookup returns a stored binding. -/
theorem lookup_mem : ∀ {m : List (String × String)} {k v : String},
    m.lookup k = some v → (k, v) ∈ m
  | [], _, _, h => by cases h
  | (k', v') :: t, k, v, h => by
    rw [List.lookup] at h
    split at h
    · next heq =>
      have hk : k = k' := by
        exact eq_of_beq heq
      cases h
      rw [hk]
      exact List.mem_cons_self _ _
    · exact List.mem_cons_of_mem _ (lookup_mem h)

/-- Helper: a character of a matching abbreviation occurs in the matched
name. -/
theorem abbrev_char_mem {ab P : String} (h : is_abbrev_match_to_string ab P = true)
    {c : Char} (hc : c ∈ ab.data) : c ∈ P.data := by
  rw [is_abbrev_match_to_string, List.all_eq_true] at h
  have hany := h c hc
  rw [List.any_eq_true] at hany
  obtain ⟨nc, hnc, hbeq⟩ := hany
  rw [beq_iff_eq] at hbeq
  exact hbeq ▸ hnc

/-- Helper: among participants with pairwise disjoint character sets, at most
one participant matches a non-empty abbreviation. -/
theorem disjoint_unique_match (parts : List String)
    (hdisj : parts.Pairwise (fun a b => ∀ c, c ∈ a.data → c ∈ b.data → False))
    (P Q : String) (hP : P ∈ parts) (hQ : Q ∈ parts) (ab : String)
    (hne : ab.data ≠ [])
    (hmP : is_abbrev_match_to_string ab P = true)
    (hmQ : is_abbrev_match_to_string ab Q = true) : Q = P := by
  by_contra hQP
  obtain ⟨c, cs, hab⟩ : ∃ c cs, ab.data = c :: cs := by
    cases hdata : ab.data with
    | nil => exact absurd hdata hne
    | cons c cs => exact ⟨c, cs, rfl⟩
  have hcab : c ∈ ab.data := by
    rw [hab]
    exact List.mem_cons_self _ _
  have hcP : c ∈ P.data := abbrev_char_mem hmP hcab
  have hcQ : c ∈ Q.data := abbrev_char_mem hmQ hcab
  have hsymm : Symmetric (fun (a b : String) => ∀ c, c ∈ a.data → c ∈ b.data → False) :=
    fun a b h c hcb hca => h c hca hcb
  exact hdisj.forall hsymm hQ hP hQP c hcQ hcP

/-- Helper: scanning the participants with no name yet claimed returns the
unique matching participant. -/
theorem findUnclaimed_eq (ab : String) :
    ∀ (parts : List String) (P : String), P ∈ parts →
      is_abbrev_match_to_string ab P = true →
      (∀ Q ∈ parts, is_abbrev_match_to_string ab Q = true → Q = P) →
      findUnclaimedMatch ab [] parts = some P
  | [], P, hP, _, _ => absurd hP (List.not_mem_nil P)
  | x :: rest, P, hP, hm, huniq => by
    by_cases hx : is_abbrev_match_to_string ab x = true
    · have hxP : x = P := huniq x (List.mem_cons_self _ _) hx
      rw [findUnclaimedMatch, if_pos (by simp [hx])]
      rw [hxP]
    · have hxP : x ≠ P := fun h => hx (h ▸ hm)
      have hPrest : P ∈ rest := by
        cases List.mem_cons.mp hP with
        | inl h => exact absurd h.symm hxP
        | inr h => exact h
      rw [findUnclaimedMatch, if_neg (by simp [hx])]
      exact findUnclaimed_eq ab rest P hPrest hm
        (fun Q hQ hmQ => huniq Q (List.mem_cons_of_mem _ hQ) hmQ)

/-- C8 (amended): for participants with pairwise disjoint character sets,
resolving a single non-empty abbreviation whose characters all occur in
participant `P` returns exactly `[P]`, provided every entry already in the
abbreviation map satisfies the invariant the resolver itself maintains (it
maps its abbreviation to a participant containing all of the abbreviation's
characters).  (Over an arbitrary pre-existing map the claim as stated is
false — see the counterexample with a polluted map.) -/
theorem c8_resolver_amended (r : Receipt) (ab P : String)
    (hdisj : r.shared_by.Pairwise (fun a b => ∀ c, c ∈ a.data → c ∈ b.data → False))
    (hmap : ∀ k nm, (k, nm) ∈ r.mapped_abbreviations →
      nm ∈ r.shared_by ∧ is_abbrev_match_to_string k nm = true)
    (hP : P ∈ r.shared_by)
    (hne : ab.data ≠ [])
    (hm : is_abbrev_match_to_string ab P = true) :
    (r.align_to_shared_by [ab]).1 = .ok [P] := by
  have huniq : is_string_vec_unique [ab] = true := rfl
  cases hlk : r.mapped_abbreviations.lookup ab with
  | some nm =>
    obtain ⟨hnmP, hnmm⟩ := hmap ab nm (lookup_mem hlk)
    have heq : nm = P := disjoint_unique_match r.shared_by hdisj P nm hP hnmP ab hne hm hnmm
    simp only [Receipt.align_to_shared_by, huniq, Bool.not_true, Bool.false_eq_true,
      if_false, alignLoop, hlk]
    simp [heq]
  | none =>
    have hfind : findUnclaimedMatch ab [] r.shared_by = some P :=
      findUnclaimed_eq ab r.shared_by P hP hm
        (fun Q hQ hmQ => disjoint_unique_match r.shared_by hdisj P Q hP hQ ab hne hm hmQ)
    simp only [Receipt.align_to_shared_by, huniq, Bool.not_true, Bool.false_eq_true,
      if_false, alignLoop, hlk, hfind]
    rfl

/-- Receipt for the C8 witness: fresh map, participants with disjoint
character sets. -/
def rResolver : Receipt :=
  { value := 300, shared_by := ["Alice", "Bob"], mapped_abbreviations := [], items := [] }

/-- Witness for the amended C8: "Al" resolves to Alice against a clean
abbreviation map. -/
theorem c8_amended_witness : (rResolver.align_to_shared_by ["Al"]).1 = .ok ["Alice"] :=
  c8_resolver_amended rResolver "Al" "Alice" (by decide)
    (fun k nm h => absurd h (List.not_mem_nil _)) (by decide) (by decide) (by decide)

/-- Helper: membership test of `List.contains` (with the lawful `BEq` of
strings). -/
theorem contains_iff_mem (l : List String) (a : String) :
    l.contains a = true ↔ a ∈ l := by
  simp [List.contains_iff_exists_mem_beq]

/-- Helper: `listPosition` misses exactly the absent names. -/
theorem listPosition_not_mem : ∀ (sb : List String) (x : String), x ∉ sb →
    listPosition (fun nm => nm == x) sb = none
  | [], _, _ => rfl
  | a :: t, x, hx => by
    rw [listPosition, if_neg (by
      intro hbeq
      exact hx ((eq_of_beq hbeq) ▸ List.mem_cons_self a t))]
    rw [listPosition_not_mem t x (fun h => hx (List.mem_cons_of_mem a h))]
    rfl

/-- Helper: on a duplicate-free list, `listPosition` finds each element at
its own index. -/
theorem listPosition_nodup : ∀ (sb : List String), sb.Nodup →
    ∀ (i : Nat) (h : i < sb.length),
      listPosition (fun nm => nm == sb[i]) sb = some i
  | [], _, i, h => absurd h (by simp)
  | a :: t, hnd, 0, h => by
    rw [listPosition, if_pos (by simp)]
  | a :: t, hnd, i + 1, h => by
    have hlt : i < t.length := Nat.lt_of_succ_lt_succ h
    have hat : a ∉ t := (List.nodup_cons.mp hnd).1
    have hti : t[i] ∈ t := List.getElem_mem hlt
    simp only [List.getElem_cons_succ]
    rw [listPosition, if_neg (by
      intro hbeq
      exact hat ((eq_of_beq hbeq) ▸ hti))]
    rw [listPosition_nodup t (List.nodup_cons.mp hnd).2 i hlt]
    rfl

/-- Helper: terms vanishing outside the filter do not change a mapped sum. -/
theorem sum_map_filter_eq (g : String → ℚ) (p : String → Bool) :
    ∀ (l : List String), (∀ x ∈ l, p x = false → g x = 0) →
      (l.map g).sum = ((l.filter p).map g).sum
  | [], _ => rfl
  | a :: t, h => by
    have ht := sum_map_filter_eq g p t (fun x hx hpx => h x (List.mem_cons_of_mem a hx) hpx)
    rw [List.map_cons, List.sum_cons, List.filter_cons]
    by_cases hp : p a = true
    · rw [if_pos hp, List.map_cons, List.sum_cons, ht]
    · have hp' : p a = false := by simpa using hp
      rw [if_neg (by simp [hp']), h a (List.mem_cons_self a t) hp', zero_add, ht]

/-- Helper: the participants that an item is shared by, taken in receipt
order, are a permutation of the item's own sharer list. -/
theorem filter_contains_perm (parts sb : List String) (hparts : parts.Nodup)
    (hsb : sb.Nodup) (hsub : ∀ x ∈ sb, x ∈ parts) :
    (parts.filter (fun x => sb.contains x)).Perm sb := by
  rw [List.perm_ext_iff_of_nodup (hparts.filter _) hsb]
  intro a
  rw [List.mem_filter, contains_iff_mem]
  exact ⟨fun h => h.2, fun h => ⟨hsub a h, h⟩⟩

/-- Helper: multiplying through a list sum by a constant. -/
theorem sum_map_mul_const (l : List ℚ) (c : ℚ) :
    (l.map (fun q => q * c)).sum = l.sum * c := by
  induction l with
  | nil => simp
  | cons a t ih => rw [List.map_cons, List.sum_cons, List.sum_cons, add_mul, ih]

/-- Helper: the exact (unrounded) per-participant shares of an item sum to
the item's value, for a duplicate-free sharer list inside duplicate-free
participants, aligned ratios, and a non-zero ratio total. -/
theorem itemRowUnrounded_sum (parts : List String) (it : ReceiptItem)
    (hparts : parts.Nodup) (hsb : it.shared_by.Nodup)
    (hsub : ∀ x ∈ it.shared_by, x ∈ parts)
    (hlen : it.shared_by.length = it.share_ratios.length)
    (hS : it.share_ratios.sum ≠ 0) :
    (itemRowUnrounded parts it).sum = it.value := by
  rw [itemRowUnrounded]
  have hzero : ∀ x ∈ parts, (it.shared_by.contains x) = false →
      (match listPosition (fun nm => nm == x) it.shared_by with
        | some pos => qdiv (qmul it.value (it.share_ratios.getD pos 0)) (qsum it.share_ratios)
        | none => (0 : ℚ)) = 0 := by
    intro x _ hc
    have hxm : x ∉ it.shared_by := fun h => by
      rw [(contains_iff_mem _ _).mpr h] at hc
      cases hc
    rw [listPosition_not_mem it.shared_by x hxm]
  rw [sum_map_filter_eq _ (fun x => it.shared_by.contains x) parts hzero]
  have hperm := (filter_contains_perm parts it.shared_by hparts hsb hsub).map
    (fun x =>
      match listPosition (fun nm => nm == x) it.shared_by with
      | some pos => qdiv (qmul it.value (it.share_ratios.getD pos 0)) (qsum it.share_ratios)
      | none => (0 : ℚ))
  rw [hperm.sum_eq]
  have hmap : it.shared_by.map (fun x =>
      match listPosition (fun nm => nm == x) it.shared_by with
      | some pos => qdiv (qmul it.value (it.share_ratios.getD pos 0)) (qsum it.share_ratios)
      | none => (0 : ℚ)) =
      it.share_ratios.map (fun q => q * (it.value / it.share_ratios.sum)) := by
    apply List.ext_getElem
    · rw [List.length_map, List.length_map, hlen]
    · intro i h1 h2
      rw [List.getElem_map, List.getElem_map]
      have hilt : i < it.shared_by.length := by
        rw [List.length_map] at h1
        exact h1
      have hpos := listPosition_nodup it.shared_by hsb i hilt
      rw [hpos]
      have hirat : i < it.share_ratios.length := hlen ▸ hilt
      show qdiv (qmul it.value (it.share_ratios.getD i 0)) (qsum it.share_ratios) =
        it.share_ratios[i] * (it.value / it.share_ratios.sum)
      rw [List.getD_eq_getElem _ _ hirat]
      rw [qdiv_eq, qmul_eq, qsum_eq]
      ring
  rw [hmap, sum_map_mul_const, mul_comm, div_mul_cancel₀ _ hS]

/-- Well-formedness of a receipt as the data model prescribes: participants
are duplicate-free, and every item's sharer list is a duplicate-free subset
of the participants. -/
def itemsWF (r : Receipt) : Prop :=
  r.shared_by.Nodup ∧ ∀ it ∈ r.items, it.shared_by.Nodup ∧ ∀ x ∈ it.shared_by, x ∈ r.shared_by

/-- The length invariant of the data model: every item has as many share
ratios as sharers. -/
def lenInv (r : Receipt) : Prop :=
  ∀ it ∈ r.items, it.shared_by.length = it.share_ratios.length

/-- Helper: each emitted item row of `calculate_splits` is the cellwise
rounding of the exact shares, with the trailing value column appended. -/
theorem itemRow_cells (parts : List String) (it : ReceiptItem) :
    parts.map (fun x =>
      match listPosition (fun name => name == x) it.shared_by with
      | some pos => roundDp2 (qdiv (qmul it.value (it.share_ratios.getD pos 0)) (qsum it.share_ratios))
      | none => roundDp2 0) = (itemRowUnrounded parts it).map roundDp2 := by
  rw [itemRowUnrounded, List.map_map]
  apply List.map_congr_left
  intro x _
  simp only [Function.comp_apply]
  cases listPosition (fun nm => nm == x) it.shared_by with
  | some pos => rfl
  | none => rfl

/-- C7 (amended): for a valid receipt with no proportional items — duplicate
free participant and sharer lists, sharers among the participants, aligned
ratio lengths and non-zero ratio totals — every item's row in the
`calculate_splits` output consists of the independently rounded exact shares
followed by the item's value as the trailing total column, and the exact
(unrounded) shares sum precisely to the item's value.  (The rounded cells
themselves need not sum to the value — see the counterexample, where the Food
row cells sum to 200.01.) -/
theorem c7_row_total_amended (r : Receipt)
    (hWF : itemsWF r)
    (hratio : ∀ it ∈ r.items, it.share_ratios.sum ≠ 0)
    (hlenInv : lenInv r)
    (hnoprop : r.items.all (fun it => !it.is_prop_dist) = true)
    (names : List String) (rows : List (List ℚ))
    (hcalc : r.calculate_splits = .ok (names, rows))
    (i : Nat) (it : ReceiptItem) (hit : r.items.get? i = some it) :
    rows.get? i = some ((itemRowUnrounded r.shared_by it).map roundDp2 ++ [it.value]) ∧
    (itemRowUnrounded r.shared_by it).sum = it.value := by
  have hmem : it ∈ r.items := List.get?_mem hit
  have hsum : (itemRowUnrounded r.shared_by it).sum = it.value :=
    itemRowUnrounded_sum r.shared_by it hWF.1 (hWF.2 it hmem).1 (hWF.2 it hmem).2
      (hlenInv it hmem) (hratio it hmem)
  refine ⟨?_, hsum⟩
  obtain ⟨hi, -⟩ := List.get?_eq_some.mp hit
  rw [Receipt.calculate_splits] at hcalc
  split at hcalc
  · exact absurd hcalc (by simp)
  · rw [Except.ok.injEq, Prod.mk.injEq] at hcalc
    obtain ⟨-, hrows⟩ := hcalc
    rw [← hrows]
    split
    · rw [List.append_assoc, List.get?_append (by simpa using hi), List.get?_map, hit]
      simp only [Option.map_some']
      rw [itemRow_cells]
    · rw [List.get?_append (by simpa using hi), List.get?_map, hit]
      simp only [Option.map_some']
      rw [itemRow_cells]

/-- The single item of the C7 witness receipt. -/
def itW : ReceiptItem :=
  { value := 100, name := "Pizza", shared_by := ["Alice", "Bob"], share_ratios := [1, 1], is_prop_dist := false }

/-- Receipt of the C7 witness: one ratio item, no proportional items. -/
def rw7 : Receipt :=
  { value := 300, shared_by := ["Alice", "Bob"], mapped_abbreviations := [], items := [itW] }

/-- Witness for the amended C7: in `rw7`, the Pizza row is the rounded exact
shares [50, 50] with trailing value 100, and the exact shares sum to 100. -/
theorem c7_amended_witness :
    ([[50, 50, 100], [100, 100, 200], [150, 150, 300]] : List (List ℚ)).get? 0 =
      some ((itemRowUnrounded rw7.shared_by itW).map roundDp2 ++ [itW.value]) ∧
    (itemRowUnrounded rw7.shared_by itW).sum = itW.value :=
  c7_row_total_amended rw7 (by unfold itemsWF; decide)
    (by
      intro it hit
      have hit' : it = itW := by
        have h' : rw7.items = [itW] := rfl
        rw [h', List.mem_singleton] at hit
        exact hit
      subst hit'
      rw [← qsum_eq]
      decide)
    (by unfold lenInv; decide) (by decide)
    ["Pizza", "<leftover>", "<total>"] [[50, 50, 100], [100, 100, 200], [150, 150, 300]]
    (by decide) 0 itW (by decide)

/-- Helper: an aligned item split has one entry per participant. -/
theorem item_split_aligned_length (parts : List String) (item : ReceiptItem) :
    (item_split_aligned parts item).length = parts.length := by
  rw [item_split_aligned]
  exact List.length_map _ _

/-- Helper: the aggregate proportions vector has one entry per participant. -/
theorem crp_length (r : Receipt) :
    (r.calculate_receipt_proportions).length = r.shared_by.length := by
  rw [Receipt.calculate_receipt_proportions]
  have h : ∀ (l : List ReceiptItem) (acc : List ℚ), acc.length = r.shared_by.length →
      (l.foldl (fun receipt_split item =>
        List.zipWith qadd receipt_split (item_split_aligned r.shared_by item)) acc).length =
        r.shared_by.length := by
    intro l
    induction l with
    | nil => intro acc hacc; exact hacc
    | cons a t ih =>
      intro acc hacc
      rw [List.foldl_cons]
      apply ih
      rw [List.length_zipWith, hacc, item_split_aligned_length]
      exact Nat.min_self _
  exact h _ _ (List.length_replicate _ _)

/-- Helper: a derived proportional ratio vector has one entry per sharer,
for a duplicate-free sharer list within duplicate-free participants. -/
theorem cisr_length (r : Receipt) (sb : List String) (v : ℚ)
    (hp : r.shared_by.Nodup) (hs : sb.Nodup) (hsub : ∀ x ∈ sb, x ∈ r.shared_by) :
    (r.calculate_item_share_ratio_by_proportion sb v).length = sb.length := by
  rw [Receipt.calculate_item_share_ratio_by_proportion]
  simp only [List.length_map]
  have hzip : ∀ (l1 : List ℚ) (l2 : List String), l1.length = l2.length →
      ((l1.zip l2).filter (fun sp => sb.contains sp.2)).length =
        (l2.filter (fun x => sb.contains x)).length := by
    intro l1
    induction l1 with
    | nil =>
      intro l2 h
      cases l2 with
      | nil => rfl
      | cons b t2 => cases h
    | cons a t ih =>
      intro l2 h
      cases l2 with
      | nil => cases h
      | cons b t2 =>
        rw [List.zip_cons_cons, List.filter_cons, List.filter_cons]
        have ht := ih t2 (by simpa using h)
        by_cases hc : sb.contains b = true
        · rw [if_pos (by simpa using hc), if_pos hc]
          simp only [List.length_cons]
          rw [ht]
        · have hc' : sb.contains b = false := by simpa using hc
          rw [if_neg (by simpa using hc), if_neg (by simpa using hc), ht]
  rw [hzip _ _ (crp_length r)]
  exact (filter_contains_perm r.shared_by sb hp hs hsub).length_eq

/-- Helper: an element written within bounds is a member of the written
list. -/
theorem mem_set_self {α : Type} : ∀ (l : List α) (idx : Nat) (a : α),
    idx < l.length → a ∈ l.set idx a
  | [], _, _, h => absurd h (by simp)
  | x :: xs, 0, a, _ => by
    rw [List.set]
    exact List.mem_cons_self _ _
  | x :: xs, i + 1, a, h => by
    rw [List.set]
    exact List.mem_cons_of_mem _ (mem_set_self xs i a (Nat.lt_of_succ_lt_succ h))

/-- Helper: the recalculation pass establishes the length invariant: it
rewrites every proportional item's ratios to one entry per sharer and leaves
non-proportional items alone.  Only the non-proportional items need to carry
the invariant beforehand. -/
theorem lenInv_recalc (r : Receipt) (hWF : itemsWF r)
    (hlen : ∀ it ∈ r.items, it.is_prop_dist = false →
      it.shared_by.length = it.share_ratios.length) :
    lenInv (r.recalculate_proportions) := by
  intro it' hit'
  have hit'' : it' ∈ r.items.map (fun item =>
      if item.is_prop_dist then
        { item with share_ratios := r.calculate_item_share_ratio_by_proportion item.shared_by item.value }
      else item) := hit'
  obtain ⟨it, hit, hfit⟩ := List.mem_map.mp hit''
  by_cases h : it.is_prop_dist = true
  · rw [← hfit]
    simp only [h, if_true]
    rw [cisr_length r it.shared_by it.value hWF.1 (hWF.2 it hit).1 (hWF.2 it hit).2]
  · have h' : it.is_prop_dist = false := by simpa using h
    rw [← hfit]
    simp only [h', Bool.false_eq_true, if_false]
    exact hlen it hit h'

/-- Helper: committing an updated item and running the conditional
recalculation pass preserves the length invariant, provided the committed
item either satisfies it already or is proportional with the recalculation
pass guaranteed to run. -/
theorem lenInv_finishUpdate (r : Receipt) (idx : Nat) (item : ReceiptItem)
    (v : Option ℚ) (sb : Option (List String)) (ipd : Option Bool)
    (hWF : itemsWF r) (hlenFull : lenInv r)
    (hitemWF : item.shared_by.Nodup ∧ ∀ x ∈ item.shared_by, x ∈ r.shared_by)
    (hitem : item.shared_by.length = item.share_ratios.length ∨
      (item.is_prop_dist = true ∧
        (0 < ((r.items.set idx item).filter (fun x => x.is_prop_dist)).length ∧
          (v.isSome || sb.isSome || ipd.isSome) = true))) :
    lenInv (finishUpdate r idx item v sb ipd).2 := by
  rw [finishUpdate]
  have hWF1 : itemsWF { r with items := r.items.set idx item } := by
    refine ⟨hWF.1, ?_⟩
    intro it hit
    rcases List.mem_or_eq_of_mem_set hit with hold | heq
    · exact hWF.2 it hold
    · subst heq
      exact hitemWF
  have hlenNon1 : ∀ it ∈ r.items.set idx item, it.is_prop_dist = false →
      it.shared_by.length = it.share_ratios.length := by
    intro it hit hf
    rcases List.mem_or_eq_of_mem_set hit with hold | heq
    · exact hlenFull it hold
    · subst heq
      rcases hitem with hl | ⟨hp, -⟩
      · exact hl
      · rw [hp] at hf
        cases hf
  split
  next hcond => exact lenInv_recalc _ hWF1 hlenNon1
  next hcond =>
    intro it hit
    rcases List.mem_or_eq_of_mem_set hit with hold | heq
    · exact hlenFull it hold
    · subst heq
      rcases hitem with hl | ⟨-, hc⟩
      · exact hl
      · exact absurd hc hcond

/-- C9: the per-item alignment `shared_by.length = share_ratios.length` holds
for every receipt produced by `Receipt.new` and is preserved by every
operation — `add_item_split_by_ratios`, `add_item_split_by_proportion`,
`update_item_at_index` (on success and on failure alike),
`remove_item_at_index` and the recalculation pass — under the data-model
precondition that the participants are duplicate-free and each item's (and
each newly supplied) sharer list is a duplicate-free subset of the
participants. -/
theorem c9_length_invariant (r : Receipt) (hWF : itemsWF r) (hlen : lenInv r) :
    (∀ v sb r0, Receipt.new v sb = .ok r0 → lenInv r0) ∧
    (∀ v nm sb rat r', r.add_item_split_by_ratios v nm sb rat = .ok r' → lenInv r') ∧
    (∀ v nm sb r', sb.Nodup → (∀ x ∈ sb, x ∈ r.shared_by) →
      r.add_item_split_by_proportion v nm sb = .ok r' → lenInv r') ∧
    (∀ idx v nm sb ipd,
      (∀ sb', sb = some sb' → sb'.Nodup ∧ ∀ x ∈ sb', x ∈ r.shared_by) →
      lenInv (r.update_item_at_index idx v nm sb ipd).2) ∧
    (∀ idx, lenInv (r.remove_item_at_index idx).2) ∧
    lenInv (r.recalculate_proportions) := by
  refine ⟨?_, ?_, ?_, ?_, ?_, ?_⟩
  · intro v sb r0 h
    rw [Receipt.new] at h
    split at h
    · cases h
    · split at h
      · cases h
      · cases h
        intro it hit
        exact absurd hit (List.not_mem_nil it)
  · intro v nm sb rat r' h
    rw [Receipt.add_item_split_by_ratios] at h
    split at h
    next => cases h
    next hlen1 =>
      split at h
      next => cases h
      next =>
        split at h
        next => cases h
        next =>
          cases h
          intro it hit
          rcases List.mem_append.mp hit with hold | hnew
          · exact hlen it hold
          · rw [List.mem_singleton] at hnew
            subst hnew
            exact not_ne_iff.mp hlen1
  · intro v nm sb r' hnd hsub h
    rw [Receipt.add_item_split_by_proportion] at h
    split at h
    next => cases h
    next =>
      split at h
      next => cases h
      next =>
        cases h
        intro it hit
        rcases List.mem_append.mp hit with hold | hnew
        · exact hlen it hold
        · rw [List.mem_singleton] at hnew
          subst hnew
          exact (cisr_length r sb v hWF.1 hnd hsub).symm
  · intro idx v nm sb ipd hsb
    cases hget : r.items.get? idx with
    | none =>
      simp only [Receipt.update_item_at_index, hget]
      exact hlen
    | some item0 =>
      obtain ⟨hidx, -⟩ := List.get?_eq_some.mp hget
      have hmem0 : item0 ∈ r.items := List.get?_mem hget
      have hWF0 := hWF.2 item0 hmem0
      have hlen0 := hlen item0 hmem0
      rcases sb with _ | sb'
      · rcases ipd with _ | b
        · simp only [Receipt.update_item_at_index, hget]
          exact lenInv_finishUpdate r idx _ v none none hWF hlen ⟨hWF0.1, hWF0.2⟩ (.inl hlen0)
        · cases b
          · simp only [Receipt.update_item_at_index, hget]
            exact lenInv_finishUpdate r idx _ v none (some false) hWF hlen
              ⟨hWF.1, fun x hx => hx⟩ (.inl (List.length_replicate _ _).symm)
          · by_cases hsplit : r.is_proportionally_splittable idx = true
            · simp only [Receipt.update_item_at_index, hget, hsplit, if_true]
              refine lenInv_finishUpdate r idx _ v none (some true) hWF hlen
                ⟨hWF.1, fun x hx => hx⟩ (.inr ⟨rfl, ?_, by simp⟩)
              apply List.length_pos.mpr
              apply List.ne_nil_of_mem
              exact List.mem_filter.mpr ⟨mem_set_self r.items idx _ hidx, rfl⟩
            · have hsplit' : r.is_proportionally_splittable idx = false := by
                simpa using hsplit
              simp only [Receipt.update_item_at_index, hget, hsplit', Bool.false_eq_true,
                if_false]
              intro it hit
              rcases List.mem_or_eq_of_mem_set hit with hold | heq
              · exact hlen it hold
              · subst heq
                exact hlen0
      · obtain ⟨hnd', hsub'⟩ := hsb sb' rfl
        rcases ipd with _ | b
        · simp only [Receipt.update_item_at_index, hget]
          exact lenInv_finishUpdate r idx _ v (some sb') none hWF hlen ⟨hnd', hsub'⟩
            (.inl (List.length_replicate _ _).symm)
        · cases b
          · simp only [Receipt.update_item_at_index, hget]
            exact lenInv_finishUpdate r idx _ v (some sb') (some false) hWF hlen
              ⟨hWF.1, fun x hx => hx⟩ (.inl (List.length_replicate _ _).symm)
          · by_cases hsplit : r.is_proportionally_splittable idx = true
            · simp only [Receipt.update_item_at_index, hget, hsplit, if_true]
              refine lenInv_finishUpdate r idx _ v (some sb') (some true) hWF hlen
                ⟨hWF.1, fun x hx => hx⟩ (.inr ⟨rfl, ?_, by simp⟩)
              apply List.length_pos.mpr
              apply List.ne_nil_of_mem
              exact List.mem_filter.mpr ⟨mem_set_self r.items idx _ hidx, rfl⟩
            · have hsplit' : r.is_proportionally_splittable idx = false := by
                simpa using hsplit
              simp only [Receipt.update_item_at_index, hget, hsplit', Bool.false_eq_true,
                if_false]
              intro it hit
              rcases List.mem_or_eq_of_mem_set hit with hold | heq
              · exact hlen it hold
              · subst heq
                exact (List.length_replicate _ _).symm
  · intro idx
    rw [Receipt.remove_item_at_index]
    split
    · exact hlen
    · split
      · exact hlen
      · have hsub : ∀ it ∈ r.items.eraseIdx idx, it ∈ r.items :=
          fun it hit => (List.eraseIdx_sublist r.items idx).mem hit
        have hWF1 : itemsWF { r with items := r.items.eraseIdx idx } :=
          ⟨hWF.1, fun it hit => hWF.2 it (hsub it hit)⟩
        have hlen1 : lenInv { r with items := r.items.eraseIdx idx } :=
          fun it hit => hlen it (hsub it hit)
        split
        · exact lenInv_recalc _ hWF1 (fun it hit _ => hlen1 it hit)
        · exact hlen1
  · exact lenInv_recalc r hWF (fun it hit _ => hlen it hit)

/-- Witness for C9: applying the preservation theorem to a concrete update of
a concrete well-formed receipt. -/
theorem c9_witness : lenInv (rLastNonProp.update_item_at_index 0 (some 5) none none none).2 :=
  (c9_length_invariant rLastNonProp (by unfold itemsWF; decide) (by unfold lenInv; decide)).2.2.2.1
    0 (some 5) none none none (fun sb' h => nomatch h)
